import Mathlib

/-!
Shallow embedding of `pms.py` (photometric stereo) over exact real arithmetic.

The source operates on NumPy float arrays; here matrices are `Matrix (Fin _) (Fin _) ℝ`
and the NumPy linear-algebra routines (`pinv`, `lstsq`, `svd`, `eig`) are embedded as
follows: `pinv`/`lstsq` by the normal-equation formula `(Nᵀ N)⁻¹ Nᵀ`, which is exactly
what those routines compute when `N` has full column rank (the regime of claim C1), and
`svd`/`eig` as oracle arguments whose defining contracts (factorisation, orthogonality,
ordered singular values, eigen-equation) are stated as hypotheses or verified
conjuncts where a claim depends on them.
-/

noncomputable section

open Matrix

/-- Euclidean norm of column `j` of a matrix, as computed by
`np.linalg.norm(·, axis=0)` in the source. -/
def colNorm {r c : ℕ} (M : Matrix (Fin r) (Fin c) ℝ) (j : Fin c) : ℝ :=
  Real.sqrt (∑ i, M i j ^ 2)

/-- Euclidean norm of row `i` of a matrix, as computed by
`np.linalg.norm(·, axis=1)` in the source. -/
def rowNorm {r c : ℕ} (M : Matrix (Fin r) (Fin c) ℝ) (i : Fin r) : ℝ :=
  Real.sqrt (∑ j, M i j ^ 2)

/-- Euclidean norm of a plain vector. -/
def vecNorm {k : ℕ} (v : Fin k → ℝ) : ℝ :=
  Real.sqrt (∑ i, v i ^ 2)

/-- Embedding of `np.linalg.pinv(N)` for a lighting matrix `N`.  For `N` of full column
rank 3 the Moore–Penrose pseudoinverse is exactly `(Nᵀ N)⁻¹ Nᵀ`, which is the
formula used here; claims about rank-deficient `N` only ever use it at `N = 0`,
where `(Nᵀ N)⁻¹ Nᵀ = 0 = pinv 0` as well. -/
def pinv3 {n : ℕ} (N : Matrix (Fin n) (Fin 3) ℝ) : Matrix (Fin 3) (Fin n) ℝ :=
  (Nᵀ * N)⁻¹ * Nᵀ

/-- Embedding of `np.linalg.lstsq(N, y)`: the least-squares solution of `N x = y`, which for
`N` of full column rank is the normal-equation solution `(Nᵀ N)⁻¹ Nᵀ y`. -/
def lstsq3 {n : ℕ} (N : Matrix (Fin n) (Fin 3) ℝ) (y : Fin n → ℝ) : Fin 3 → ℝ :=
  (Nᵀ * N)⁻¹ *ᵥ (Nᵀ *ᵥ y)

/-- The per-pixel albedo `rho = np.linalg.norm(N_i.dot(I), axis=0)`
from `photometricStereo` (line 42 of `pms.py`). -/
def rho {n p : ℕ} (N : Matrix (Fin n) (Fin 3) ℝ) (I : Matrix (Fin n) (Fin p) ℝ)
    (j : Fin p) : ℝ :=
  colNorm (pinv3 N * I) j

/-- The numeric core of `photometricStereo` (lines 38–50 of `pms.py`), taking the
already-assembled lighting matrix `N` and intensity matrix `I` (file loading is an
external concern).  `output` starts as zeros; each column with `rho ≠ 0` receives the
least-squares solution of `N x = I_col / rho`; columns with `rho = 0` stay zero.  The
final reshape/swapaxes is a bijective re-indexing of pixel positions and is omitted:
all claims are about the per-pixel 3-vectors. -/
def photometricStereo {n p : ℕ} (N : Matrix (Fin n) (Fin 3) ℝ)
    (I : Matrix (Fin n) (Fin p) ℝ) : Matrix (Fin 3) (Fin p) ℝ :=
  Matrix.of fun i j =>
    if rho N I j = 0 then 0 else lstsq3 N (fun k => I k j / rho N I j) i

/-- The typed failures named by the specification, together with the raw Python
`IndexError`.  None of the typed ones occurs anywhere in `pms.py`. -/
inductive PmsError where
  | degenerateLighting
  | insufficientImages
  | ambiguityResolution
  | indexError
  deriving DecidableEq

/-- The solver `photometricStereo` wrapped in an error channel.  The source function contains no
`raise` statement and no code path that throws (division by a zero albedo yields
non-finite floats, not an exception; `lstsq` accepts any shape used here), so the
embedding always returns `Except.ok`. -/
def photometricStereoE {n p : ℕ} (N : Matrix (Fin n) (Fin 3) ℝ)
    (I : Matrix (Fin n) (Fin p) ℝ) : Except PmsError (Matrix (Fin 3) (Fin p) ℝ) :=
  Except.ok (photometricStereo N I)

/-- Columns of a matrix product are matrix-vector products with the columns. -/
theorem mul_col_eq_mulVec {a b c : ℕ} (A : Matrix (Fin a) (Fin b) ℝ)
    (B : Matrix (Fin b) (Fin c) ℝ) (j : Fin c) :
    (fun i => (A * B) i j) = A *ᵥ (fun k => B k j) := by
  funext i
  simp [Matrix.mul_apply, Matrix.mulVec, dotProduct]

/-- The solution map `lstsq3` is homogeneous in its right-hand side. -/
theorem lstsq3_smul {n : ℕ} (N : Matrix (Fin n) (Fin 3) ℝ) (c : ℝ) (y : Fin n → ℝ) :
    lstsq3 N (c • y) = c • lstsq3 N y := by
  unfold lstsq3
  rw [Matrix.mulVec_smul, Matrix.mulVec_smul]

/-- C1: For every lighting matrix `N` of column rank 3 and every intensity matrix `I`,
the calibrated solver returns, at each pixel whose albedo `rho` is nonzero, a vector of
Euclidean norm exactly 1, and at each pixel with zero albedo, exactly the zero
vector. -/
theorem photometricStereo_unit_normals {n p : ℕ} (N : Matrix (Fin n) (Fin 3) ℝ)
    (I : Matrix (Fin n) (Fin p) ℝ) (hrank : N.rank = 3) (j : Fin p) :
    (rho N I j ≠ 0 → colNorm (photometricStereo N I) j = 1) ∧
    (rho N I j = 0 → ∀ i, photometricStereo N I i j = 0) := by
  constructor
  · intro hj
    have hcol : (fun i => photometricStereo N I i j)
        = fun i => (pinv3 N * I) i j / rho N I j := by
      funext i
      show (if rho N I j = 0 then 0 else lstsq3 N (fun k => I k j / rho N I j) i) = _
      rw [if_neg hj]
      have h1 : (fun k => I k j / rho N I j) = (rho N I j)⁻¹ • fun k => I k j := by
        funext k
        simp [div_eq_inv_mul, Pi.smul_apply, smul_eq_mul]
      have h2 : (fun i => (pinv3 N * I) i j) = lstsq3 N (fun k => I k j) := by
        rw [mul_col_eq_mulVec]
        unfold pinv3 lstsq3
        funext i
        rw [← Matrix.mulVec_mulVec]
      rw [h1, lstsq3_smul]
      have := congrFun h2 i
      simp [Pi.smul_apply, smul_eq_mul, this, div_eq_inv_mul]
    have hsum : ∑ i, photometricStereo N I i j ^ 2
        = (∑ i, (pinv3 N * I) i j ^ 2) / rho N I j ^ 2 := by
      rw [Finset.sum_div]
      refine Finset.sum_congr rfl fun i _ => ?_
      rw [congrFun hcol i, div_pow]
    have hnn : (0 : ℝ) ≤ ∑ i, (pinv3 N * I) i j ^ 2 :=
      Finset.sum_nonneg fun i _ => sq_nonneg _
    have hrho : rho N I j ^ 2 = ∑ i, (pinv3 N * I) i j ^ 2 := by
      unfold rho colNorm
      exact Real.sq_sqrt hnn
    have hne : (∑ i, (pinv3 N * I) i j ^ 2) ≠ 0 := by
      intro h0
      apply hj
      unfold rho colNorm
      rw [h0, Real.sqrt_zero]
    unfold colNorm
    rw [hsum, hrho, div_self hne, Real.sqrt_one]
  · intro hj i
    show (if rho N I j = 0 then 0 else lstsq3 N (fun k => I k j / rho N I j) i) = 0
    rw [if_pos hj]

/-- Witness for C1 at the concrete input `N = I = 1` (3 images, identity lighting,
identity intensities): pixel 0 has nonzero albedo and its recovered normal has
Euclidean norm exactly 1. -/
theorem photometricStereo_unit_normals_witness :
    colNorm (photometricStereo (1 : Matrix (Fin 3) (Fin 3) ℝ)
      (1 : Matrix (Fin 3) (Fin 3) ℝ)) (0 : Fin 3) = 1 := by
  have hrank : (1 : Matrix (Fin 3) (Fin 3) ℝ).rank = 3 := by
    rw [Matrix.rank_one]
    simp
  have hrho : rho (1 : Matrix (Fin 3) (Fin 3) ℝ) (1 : Matrix (Fin 3) (Fin 3) ℝ)
      (0 : Fin 3) = 1 := by
    unfold rho colNorm pinv3
    simp [Fin.sum_univ_three, Matrix.one_apply]
  exact (photometricStereo_unit_normals 1 1 hrank 0).1 (by rw [hrho]; norm_num)

/-- Embedding of `colorizeNormals` (lines 135–143 of `pms.py`): each position's 3-vector is divided
by its Euclidean norm (`np.linalg.norm` along the last axis) and affinely mapped by
`(v + 1) / 2`.  The source has no zero-norm guard: NumPy evaluates `0/0` to NaN there;
in the exact model division by zero is the junk value `0`.  Positions are indexed by an
arbitrary type `ι` (the leading array dimensions). -/
def colorizeNormals {ι : Type} (normals : ι → Fin 3 → ℝ) : ι → Fin 3 → ℝ :=
  fun a c => (normals a c / vecNorm (normals a) + 1) / 2

/-- C9: the colorizer is scale-invariant at every position whose vector has nonzero
norm: multiplying the field by a positive scalar `k` leaves the output unchanged
there. -/
theorem colorizeNormals_scale_invariant {ι : Type} (normals : ι → Fin 3 → ℝ)
    (k : ℝ) (a : ι) (hk : 0 < k) (hn : vecNorm (normals a) ≠ 0) :
    ∀ c, colorizeNormals (fun b c => k * normals b c) a c = colorizeNormals normals a c := by
  intro c
  unfold colorizeNormals
  have hnorm : vecNorm (fun c => k * normals a c) = k * vecNorm (normals a) := by
    unfold vecNorm
    have : ∑ i, (k * normals a i) ^ 2 = k ^ 2 * ∑ i, normals a i ^ 2 := by
      rw [Finset.mul_sum]
      exact Finset.sum_congr rfl fun i _ => by ring
    rw [this, Real.sqrt_mul (sq_nonneg k), Real.sqrt_sq hk.le]
  rw [hnorm, mul_div_mul_left _ _ (ne_of_gt hk)]

/-- Witness for C9 at the field constantly `(1,0,0)` on a single position, `k = 2`. -/
theorem colorizeNormals_scale_invariant_witness :
    colorizeNormals (fun b c => 2 * (fun _ : Fin 1 => (![1, 0, 0] : Fin 3 → ℝ)) b c)
        (0 : Fin 1) (0 : Fin 3)
      = colorizeNormals (fun _ : Fin 1 => (![1, 0, 0] : Fin 3 → ℝ)) (0 : Fin 1) (0 : Fin 3) := by
  refine colorizeNormals_scale_invariant _ 2 0 (by norm_num) ?_ 0
  unfold vecNorm
  rw [Fin.sum_univ_three]
  norm_num

/-- C6 counterexample: at a zero 3-vector the colorizer does not output the zero
vector: the exact model yields `((0 / 0) + 1) / 2 = 1 / 2` in every channel (the
floating-point source yields NaN there — either way not `0`). -/
theorem colorizeNormals_zero_not_zero :
    colorizeNormals (fun _ : Fin 1 => (0 : Fin 3 → ℝ)) (0 : Fin 1) (1 : Fin 3) = 1 / 2 ∧
    (1 / 2 : ℝ) ≠ 0 := by
  constructor
  · unfold colorizeNormals vecNorm
    simp
  · norm_num

/-- C6 amended: the colorizer has no zero-norm guard; at any position whose vector is
zero it divides `0` by the zero norm (NaN in NumPy, junk `0` in the exact model) and
then applies `(v + 1) / 2`, producing `1 / 2` in every channel in the model — not the
zero vector — while raising no exception (the embedding is total). -/
theorem colorizeNormals_zero_is_half {ι : Type} (normals : ι → Fin 3 → ℝ) (a : ι)
    (h : ∀ c, normals a c = 0) :
    ∀ c, colorizeNormals normals a c = 1 / 2 := by
  intro c
  unfold colorizeNormals vecNorm
  rw [h c]
  have : ∑ i, normals a i ^ 2 = 0 := by
    refine Finset.sum_eq_zero fun i _ => ?_
    rw [h i]
    ring
  rw [this, Real.sqrt_zero]
  norm_num

/-- Witness for the amended C6 at the concretely zero field. -/
theorem colorizeNormals_zero_is_half_witness :
    colorizeNormals (fun _ : Fin 1 => (0 : Fin 3 → ℝ)) (0 : Fin 1) (0 : Fin 3) = 1 / 2 :=
  colorizeNormals_zero_is_half _ 0 (fun _ => rfl) 0

/-- Embedding of `np.linspace(-1, 1, d)`: the `i`-th of `d` evenly spaced samples of `[-1, 1]`,
`-1 + 2 i / (d - 1)` (lines 147 of `pms.py`). -/
def linspace (d : ℕ) (i : Fin d) : ℝ :=
  -1 + 2 * (i : ℕ) / ((d : ℕ) - 1 : ℝ)

/-- The radicand `1 - x² - y²` of the sphere height at output position `(a, b)` of
`generateNormalMap` (line 148 of `pms.py`, read through the final `swapaxes(0, 1)`;
the radicand is symmetric in its two coordinates, so the un-swapped `valid` mask in
line 159 tests the same condition). -/
def sphereZsq (d : ℕ) (a b : Fin d) : ℝ :=
  1 - linspace d a ^ 2 - linspace d b ^ 2

/-- The normal vector `(x, -y, z)` stored by `generateNormalMap` at output position
`(a, b)` (lines 147–155 of `pms.py`): the height `z` is `√(1 - x² - y²)` where the
radicand is non-negative and the initialised `0` elsewhere. -/
def sphereNormal (d : ℕ) (a b : Fin d) : Fin 3 → ℝ :=
  ![linspace d a, -linspace d b,
    if 0 ≤ sphereZsq d a b then Real.sqrt (sphereZsq d a b) else 0]

/-- Embedding of `generateNormalMap` (lines 145–161 of `pms.py`): colorize the sphere normals and
zero out the positions outside the unit disc (`img[~valid] = 0`). -/
def generateNormalMap (d : ℕ) : Fin d → Fin d → Fin 3 → ℝ :=
  fun a b c =>
    if 0 ≤ sphereZsq d a b then
      colorizeNormals (fun q : Fin d × Fin d => sphereNormal d q.1 q.2) (a, b) c
    else 0

/-- Inside the unit disc the stored sphere normal is exactly unit length. -/
theorem sphereNormal_norm_one (d : ℕ) (a b : Fin d) (h : 0 ≤ sphereZsq d a b) :
    vecNorm (sphereNormal d a b) = 1 := by
  unfold vecNorm sphereNormal
  rw [Fin.sum_univ_three]
  simp only [Matrix.cons_val_zero, Matrix.cons_val_one, Matrix.head_cons,
    Matrix.cons_val_two, Matrix.tail_cons]
  rw [if_pos h, Real.sq_sqrt h]
  have : linspace d a ^ 2 + (-linspace d b) ^ 2 + sphereZsq d a b = 1 := by
    unfold sphereZsq
    ring
  rw [this, Real.sqrt_one]

/-- Inside the unit disc the generated color is the affinely shifted normal. -/
theorem generateNormalMap_valid (d : ℕ) (a b : Fin d) (h : 0 ≤ sphereZsq d a b)
    (c : Fin 3) :
    generateNormalMap d a b c = (sphereNormal d a b c + 1) / 2 := by
  unfold generateNormalMap colorizeNormals
  rw [if_pos h]
  show (sphereNormal d a b c / vecNorm (sphereNormal d a b) + 1) / 2 = _
  rw [sphereNormal_norm_one d a b h, div_one]

/-- Witness helper for the linspace value at the exact middle of an odd grid. -/
theorem linspace_center_odd (m : ℕ) (hm : 0 < m) :
    linspace (2 * m + 1) ⟨m, by omega⟩ = 0 := by
  unfold linspace
  have h2 : ((2 * m + 1 : ℕ) : ℝ) - 1 = 2 * (m : ℕ) := by
    push_cast
    ring
  rw [h2]
  have hne : (2 * (m : ℕ) : ℝ) ≠ 0 := by
    have : (0 : ℝ) < (m : ℕ) := by exact_mod_cast hm
    positivity
  field_simp

/-- C7 amended: for an odd resolution `d = 2m + 1` (`m ≥ 1`) the center grid point
carries the normal `(0, 0, 1)` and colorizes to `(1/2, 1/2, 1)`.  (The claim as stated
fails at the default resolution 600, which is even: see the counterexample.) -/
theorem generateNormalMap_center_odd (m : ℕ) (hm : 0 < m) :
    sphereNormal (2 * m + 1) ⟨m, by omega⟩ ⟨m, by omega⟩ = ![0, 0, 1] ∧
    (∀ c, generateNormalMap (2 * m + 1) ⟨m, by omega⟩ ⟨m, by omega⟩ c
      = ![(1 : ℝ) / 2, 1 / 2, 1] c) := by
  have hls := linspace_center_odd m hm
  have hzsq : sphereZsq (2 * m + 1) ⟨m, by omega⟩ ⟨m, by omega⟩ = 1 := by
    unfold sphereZsq
    rw [hls]
    ring
  have hnormal : sphereNormal (2 * m + 1) ⟨m, by omega⟩ ⟨m, by omega⟩ = ![0, 0, 1] := by
    unfold sphereNormal
    rw [hls, hzsq]
    norm_num
  refine ⟨hnormal, fun c => ?_⟩
  rw [generateNormalMap_valid _ _ _ (by rw [hzsq]; norm_num), hnormal]
  fin_cases c <;> norm_num

/-- Witness for the amended C7 at `m = 1` (a 3×3 grid): the center pixel's blue
channel is exactly 1. -/
theorem generateNormalMap_center_odd_witness :
    generateNormalMap 3 ⟨1, by norm_num⟩ ⟨1, by norm_num⟩ (2 : Fin 3) = 1 := by
  have := (generateNormalMap_center_odd 1 (by norm_num)).2 2
  simpa using this

/-- C7 counterexample: at the default resolution `dims = 600` the grid is even, so no
grid point sits at the exact center: the four center-most pixels have first coordinate
`±1/599`, and their red channel colorizes to `300/599` resp. `299/599`, not the claimed
`0.5`.  (No pixel of the default map colorizes to `(0.5, 0.5, 1)`.) -/
theorem generateNormalMap_default_center_cex :
    generateNormalMap 600 ⟨300, by norm_num⟩ ⟨300, by norm_num⟩ (0 : Fin 3) = 300 / 599 ∧
    generateNormalMap 600 ⟨299, by norm_num⟩ ⟨299, by norm_num⟩ (0 : Fin 3) = 299 / 599 ∧
    (300 / 599 : ℝ) ≠ 1 / 2 ∧ (299 / 599 : ℝ) ≠ 1 / 2 := by
  have hls300 : linspace 600 ⟨300, by norm_num⟩ = 1 / 599 := by
    unfold linspace
    norm_num
  have hls299 : linspace 600 ⟨299, by norm_num⟩ = -1 / 599 := by
    unfold linspace
    norm_num
  have hz300 : (0 : ℝ) ≤ sphereZsq 600 ⟨300, by norm_num⟩ ⟨300, by norm_num⟩ := by
    unfold sphereZsq
    rw [hls300]
    norm_num
  have hz299 : (0 : ℝ) ≤ sphereZsq 600 ⟨299, by norm_num⟩ ⟨299, by norm_num⟩ := by
    unfold sphereZsq
    rw [hls299]
    norm_num
  refine ⟨?_, ?_, by norm_num, by norm_num⟩
  · rw [generateNormalMap_valid _ _ _ hz300]
    unfold sphereNormal
    rw [hls300]
    norm_num
  · rw [generateNormalMap_valid _ _ _ hz299]
    unfold sphereNormal
    rw [hls299]
    norm_num

/-- First-factor row indices of the quadratic terms, the tuple
`(0, 1, 2, 3, 0, 0, 0, 1, 1, 2)` of line 90 of `pms.py`. -/
def qIdx1 : Fin 10 → Fin 4 := ![0, 1, 2, 3, 0, 0, 0, 1, 1, 2]

/-- Second-factor row indices of the quadratic terms, the tuple
`(0, 1, 2, 3, 1, 2, 3, 2, 3, 3)` of line 91 of `pms.py`. -/
def qIdx2 : Fin 10 → Fin 4 := ![0, 1, 2, 3, 1, 2, 3, 2, 3, 3]

/-- The quadratic-constraint matrix `Q` of `photometricStereoWithoutLightning`
(lines 90–94 of `pms.py`): `Q1 = np.take(S, qIdx1, axis=0)`,
`Q2 = np.take(S, qIdx2, axis=0)`, `Q = Q1 * Q2` elementwise (shape 10×n), then
`Q[:, 4:] *= 2` — which doubles every entry whose second index, the PIXEL index `j`,
is ≥ 4 (the statement precedes the transpose) — and finally `Q = Q.T` (n×10).
Entry `(j, k)` of the result is therefore `S[qIdx1 k, j] * S[qIdx2 k, j]`,
doubled exactly when `j ≥ 4`. -/
def buildQ {n : ℕ} (S : Matrix (Fin 4) (Fin n) ℝ) : Matrix (Fin n) (Fin 10) ℝ :=
  Matrix.of fun j k => (if 4 ≤ (j : ℕ) then 2 else 1) * (S (qIdx1 k) j * S (qIdx2 k) j)

/-- Modelled from the spec: the intended quadratic-constraint matrix, in which the 6
off-diagonal products — entries 4..9 of EACH row — are the doubled ones
(`(q1², …, q4², 2q1q2, …, 2q3q4)`, as the source's own comment on lines 88–89 and the
spec both state). -/
def buildQspec {n : ℕ} (S : Matrix (Fin 4) (Fin n) ℝ) : Matrix (Fin n) (Fin 10) ℝ :=
  Matrix.of fun j k => (if 4 ≤ (k : ℕ) then 2 else 1) * (S (qIdx1 k) j * S (qIdx2 k) j)

/-- The all-ones normalized pseudo-shape used as the failing input for C2. -/
def onesS : Matrix (Fin 4) (Fin 5) ℝ := Matrix.of fun _ _ => 1

/-- C2 (code bug): on the all-ones 4×5 pseudo-shape, the code's `Q` leaves the
off-diagonal entry `(0, 4)` of pixel row 0 undoubled (value 1, though `2·q1·q2 = 2`)
and instead doubles the squared entry `(4, 0)` of pixel row 4 (value 2, though
`q1² = 1`): `Q[:, 4:] *= 2` doubles pixel rows ≥ 4, not the 6 off-diagonal columns
required by the spec and by the source's own comment. -/
theorem buildQ_doubles_wrong_axis :
    buildQ onesS 0 4 = 1 ∧ buildQ onesS 4 0 = 2 ∧
    buildQspec onesS 0 4 = 2 ∧ buildQspec onesS 4 0 = 1 ∧ (1 : ℝ) ≠ 2 := by
  refine ⟨?_, ?_, ?_, ?_, by norm_num⟩ <;>
    norm_num [buildQ, buildQspec, onesS,
      show ((0 : Fin 5) : ℕ) = 0 from rfl, show ((4 : Fin 5) : ℕ) = 4 from rfl,
      show ((0 : Fin 10) : ℕ) = 0 from rfl, show ((4 : Fin 10) : ℕ) = 4 from rfl]

/-- The fixed 16-entry index mapping `(0,4,5,6 / 4,1,7,8 / 5,7,2,9 / 6,8,9,3)` of
lines 101–104 of `pms.py`. -/
def bIdx : Matrix (Fin 4) (Fin 4) (Fin 10) :=
  !![0, 4, 5, 6; 4, 1, 7, 8; 5, 7, 2, 9; 6, 8, 9, 3]

/-- Embedding of `B = np.take(b.flat, (0,4,5,6, 4,1,7,8, 5,7,2,9, 6,8,9,3)).reshape((4, 4))`
(lines 101–104 of `pms.py`). -/
def buildB (b : Fin 10 → ℝ) : Matrix (Fin 4) (Fin 4) ℝ :=
  Matrix.of fun i j => b (bIdx i j)

/-- C10: the 4×4 matrix assembled from the 10-vector `b` by the fixed index mapping is
symmetric — each off-diagonal pair of positions reads the same element of `b`. -/
theorem buildB_symmetric (b : Fin 10 → ℝ) : (buildB b)ᵀ = buildB b := by
  ext i j
  show b (bIdx j i) = b (bIdx i j)
  congr 1
  fin_cases i <;> fin_cases j <;> rfl

/-- Line 100 of `pms.py`: `b = VQ[:, 9]` — the code selects COLUMN 9 of the matrix
returned by `np.linalg.svd(Q)`.  That returned matrix is `Vᵗ` (rows are the
right-singular vectors, ordered by descending singular value), so the code picks the
vector of 10th components of all right-singular vectors. -/
def selectB (VQ : Matrix (Fin 10) (Fin 10) ℝ) : Fin 10 → ℝ := fun i => VQ i 9

/-- Modelled from the spec (and from the source's own comment on lines 96–98): the
right-singular vector associated with the smallest singular value, i.e. ROW 9 of the
`Vᵗ` factor. -/
def smallestRightSingular (VQ : Matrix (Fin 10) (Fin 10) ℝ) : Fin 10 → ℝ := fun j => VQ 9 j

/-- Integer scaling (by 5) of the orthogonal `Vᵗ` factor used as the failing input for
C3: the identity except for a rotation with cosine 3/5, sine 4/5 in coordinates
(8, 9). -/
def WtZ : Matrix (Fin 10) (Fin 10) ℤ := Matrix.of fun i j =>
  if (i : ℕ) = 8 then (if (j : ℕ) = 8 then 3 else if (j : ℕ) = 9 then 4 else 0)
  else if (i : ℕ) = 9 then (if (j : ℕ) = 8 then -4 else if (j : ℕ) = 9 then 3 else 0)
  else if (i : ℕ) = (j : ℕ) then 5 else 0

theorem WtZ_orth : WtZ * WtZᵀ = (25 : ℤ) • 1 := by decide

theorem WtZ_sq_89 : (WtZ * WtZ) 8 9 = 24 := by decide

/-- The concrete `Vᵗ` factor for the C3 failing input. -/
def VtEx : Matrix (Fin 10) (Fin 10) ℝ := (5 : ℝ)⁻¹ • WtZ.map (Int.castRingHom ℝ)

/-- The concrete singular values `9, 8, …, 1, 0` for the C3 failing input. -/
def sigEx : Fin 10 → ℝ := fun i => 9 - (i : ℕ)

/-- The concrete quadratic-constraint matrix `Q = 1 · diag(sigEx) · VtEx` for the C3
failing input. -/
def QEx : Matrix (Fin 10) (Fin 10) ℝ := Matrix.of fun i j => sigEx i * VtEx i j

theorem intSmulOne_cast {m : ℕ} (c : ℤ) :
    ((c : ℤ) • (1 : Matrix (Fin m) (Fin m) ℤ)).map (Int.castRingHom ℝ)
      = ((c : ℝ)) • 1 := by
  ext i j
  simp only [Matrix.map_apply, Matrix.smul_apply, Matrix.one_apply, smul_eq_mul]
  by_cases h : i = j <;> simp [h]

theorem intSmul_cast {m k : ℕ} (c : ℤ) (M : Matrix (Fin m) (Fin k) ℤ) :
    ((c : ℤ) • M).map (Int.castRingHom ℝ)
      = ((c : ℝ)) • M.map (Int.castRingHom ℝ) := by
  ext i j
  simp [Matrix.map_apply, Matrix.smul_apply]

theorem VtEx_orth : VtEx * VtExᵀ = 1 := by
  unfold VtEx
  rw [Matrix.transpose_smul, Matrix.smul_mul, Matrix.mul_smul, smul_smul,
    ← Matrix.transpose_map, ← Matrix.map_mul, WtZ_orth, intSmulOne_cast, smul_smul]
  norm_num

/-- C3 (code bug): a concrete legitimate SVD of a concrete `Q` on which the code's
selection `b = VQ[:, 9]` is not the approximate null vector: the first four conjuncts
verify the SVD contract (`Q = U Σ Vᵗ` with `U = 1`, `Vᵗ` orthogonal, singular values
nonincreasing and non-negative); the code's `b` is a unit vector with
`(Q b)₈ = 24/25 ≠ 0`, while the spec's choice — row 9 of `Vᵗ` — is an exact unit null
vector of `Q`.  Hence `VQ[:, 9]` does not minimise `‖Q b‖` over unit vectors; the
intended selection is `VQ[9, :]`. -/
theorem selectB_not_min_singular_vector :
    QEx = (1 : Matrix (Fin 10) (Fin 10) ℝ) * Matrix.diagonal sigEx * VtEx ∧
    VtEx * VtExᵀ = 1 ∧
    (∀ i j : Fin 10, i ≤ j → sigEx j ≤ sigEx i) ∧
    (∀ i : Fin 10, 0 ≤ sigEx i) ∧
    (QEx *ᵥ selectB VtEx) 8 = 24 / 25 ∧
    QEx *ᵥ smallestRightSingular VtEx = 0 ∧
    (∑ i, selectB VtEx i ^ 2) = 1 ∧
    (24 / 25 : ℝ) ≠ 0 := by
  refine ⟨?_, VtEx_orth, ?_, ?_, ?_, ?_, ?_, by norm_num⟩
  · rw [Matrix.one_mul]
    ext i j
    rw [Matrix.diagonal_mul]
    rfl
  · intro i j h
    unfold sigEx
    have : ((i : ℕ) : ℝ) ≤ ((j : ℕ) : ℝ) := by exact_mod_cast h
    linarith
  · intro i
    unfold sigEx
    have : ((i : ℕ) : ℝ) ≤ 9 := by
      have := i.isLt
      exact_mod_cast Nat.lt_succ_iff.mp this
    linarith
  · have key : (QEx *ᵥ selectB VtEx) 8 = sigEx 8 * ((VtEx * VtEx) 8 9) := by
      simp only [Matrix.mulVec, dotProduct, QEx, Matrix.of_apply, selectB,
        Matrix.mul_apply, Finset.mul_sum, mul_assoc]
    have hvv : (VtEx * VtEx) 8 9 = 24 / 25 := by
      unfold VtEx
      rw [Matrix.smul_mul, Matrix.mul_smul, smul_smul, ← Matrix.map_mul]
      rw [Matrix.smul_apply, Matrix.map_apply, WtZ_sq_89]
      norm_num
    rw [key, hvv]
    norm_num [sigEx, show ((8 : Fin 10) : ℕ) = 8 from rfl]
  · funext i
    have key : (QEx *ᵥ smallestRightSingular VtEx) i = sigEx i * ((VtEx * VtExᵀ) i 9) := by
      simp only [Matrix.mulVec, dotProduct, QEx, Matrix.of_apply, smallestRightSingular,
        Matrix.mul_apply, Matrix.transpose_apply, Finset.mul_sum, mul_assoc]
    rw [key, VtEx_orth]
    by_cases h : i = (9 : Fin 10)
    · subst h
      norm_num [sigEx, show ((9 : Fin 10) : ℕ) = 9 from rfl]
    · simp [Matrix.one_apply, h]
  · have hlr : VtExᵀ * VtEx = 1 := Matrix.mul_eq_one_comm.mp VtEx_orth
    have key : (VtExᵀ * VtEx) 9 9 = ∑ i, selectB VtEx i ^ 2 := by
      rw [Matrix.mul_apply]
      refine Finset.sum_congr rfl fun i _ => ?_
      simp [Matrix.transpose_apply, selectB, sq]
    rw [hlr] at key
    rw [← key]
    simp [Matrix.one_apply]

/-- The count of positive eigenvalue signs,
`np.sum(B_eig_sn[B_eig_sn > 0])` (line 109 of `pms.py`). -/
def nbPos (lam : Fin 4 → ℝ) : ℕ := ∑ i, if 0 < lam i then 1 else 0

/-- The count of negative eigenvalue signs,
`np.sum(np.abs(B_eig_sn[B_eig_sn < 0]))` (line 110 of `pms.py`). -/
def nbNeg (lam : Fin 4 → ℝ) : ℕ := ∑ i, if lam i < 0 then 1 else 0

/-- The ambiguity-resolution step, lines 106–120 of `pms.py`, parameterised by the
`np.linalg.eig` oracle (`eig M = (Λ, W)` with the columns of `W` the eigenvectors:
`M * W = W * diagonal Λ`; `np.linalg.eigvals M` is its first component) and by the
`np.linalg.svd` oracle used in the fallback branch (`svdB M = (UB, VBt)`).
If `1 in (nb_pos, nb_neg)`: flip `B` when `nb_pos == 1`, then
`A = np.sqrt(np.abs(np.diag(Λ))).dot(W)` — the absolute value is taken
unconditionally, `W` is NOT transposed, and nothing is ever raised.
Otherwise `A = UB.dot(VBt)`. -/
def ambiguityStep (eig : Matrix (Fin 4) (Fin 4) ℝ → (Fin 4 → ℝ) × Matrix (Fin 4) (Fin 4) ℝ)
    (svdB : Matrix (Fin 4) (Fin 4) ℝ → Matrix (Fin 4) (Fin 4) ℝ × Matrix (Fin 4) (Fin 4) ℝ)
    (B : Matrix (Fin 4) (Fin 4) ℝ) : Matrix (Fin 4) (Fin 4) ℝ :=
  if nbPos (eig B).1 = 1 ∨ nbNeg (eig B).1 = 1 then
    (Matrix.diagonal fun i =>
        Real.sqrt |(eig (if nbPos (eig B).1 = 1 then -B else B)).1 i|) *
      (eig (if nbPos (eig B).1 = 1 then -B else B)).2
  else
    (svdB B).1 * (svdB B).2

/-- The step `ambiguityStep` in an error channel: the source contains no `raise` in this step
(nor anywhere else), so the result is always `Except.ok`. -/
def ambiguityStepE
    (eig : Matrix (Fin 4) (Fin 4) ℝ → (Fin 4 → ℝ) × Matrix (Fin 4) (Fin 4) ℝ)
    (svdB : Matrix (Fin 4) (Fin 4) ℝ → Matrix (Fin 4) (Fin 4) ℝ × Matrix (Fin 4) (Fin 4) ℝ)
    (B : Matrix (Fin 4) (Fin 4) ℝ) : Except PmsError (Matrix (Fin 4) (Fin 4) ℝ) :=
  Except.ok (ambiguityStep eig svdB B)

/-- Integer data for the C5 failing input: a symmetric `B` with eigenvalues
`25, 100, 1, -1` (signature 3 positive, 1 negative — the separable branch with the
singleton already negative, so no flip). -/
def BExZ : Matrix (Fin 4) (Fin 4) ℤ := Matrix.of fun i j =>
  if (i : ℕ) = 0 then (if (j : ℕ) = 0 then 73 else if (j : ℕ) = 1 then -36 else 0)
  else if (i : ℕ) = 1 then (if (j : ℕ) = 0 then -36 else if (j : ℕ) = 1 then 52 else 0)
  else if (i : ℕ) = 2 then (if (j : ℕ) = 2 then 1 else 0)
  else if (j : ℕ) = 3 then -1 else 0

/-- Five times the (column-orthonormal) eigenvector matrix of `BExZ`. -/
def WEx5Z : Matrix (Fin 4) (Fin 4) ℤ := Matrix.of fun i j =>
  if (i : ℕ) = 0 then (if (j : ℕ) = 0 then 3 else if (j : ℕ) = 1 then -4 else 0)
  else if (i : ℕ) = 1 then (if (j : ℕ) = 0 then 4 else if (j : ℕ) = 1 then 3 else 0)
  else if (i : ℕ) = 2 then (if (j : ℕ) = 2 then 5 else 0)
  else if (j : ℕ) = 3 then 5 else 0

/-- The eigenvalues of `BExZ`. -/
def LamZ : Fin 4 → ℤ := fun i =>
  if (i : ℕ) = 0 then 25 else if (i : ℕ) = 1 then 100 else if (i : ℕ) = 2 then 1 else -1

/-- Elementwise square roots of the absolute eigenvalues. -/
def sqrtLamZ : Fin 4 → ℤ := fun i =>
  if (i : ℕ) = 0 then 5 else if (i : ℕ) = 1 then 10 else 1

/-- The integer matrix whose real cast is the `A` the code computes on this input. -/
def AExZ : Matrix (Fin 4) (Fin 4) ℤ := Matrix.of fun i j =>
  if (i : ℕ) = 0 then (if (j : ℕ) = 0 then 3 else if (j : ℕ) = 1 then -4 else 0)
  else if (i : ℕ) = 1 then (if (j : ℕ) = 0 then 8 else if (j : ℕ) = 1 then 6 else 0)
  else if (i : ℕ) = 2 then (if (j : ℕ) = 2 then 1 else 0)
  else if (j : ℕ) = 3 then 1 else 0

theorem BExZ_eigen : BExZ * WEx5Z = WEx5Z * Matrix.diagonal LamZ := by decide

theorem sqrtLam_mul : Matrix.diagonal sqrtLamZ * WEx5Z = (5 : ℤ) • AExZ := by decide

/-- The concrete real `B` for the C5 failing input. -/
def BEx : Matrix (Fin 4) (Fin 4) ℝ := BExZ.map (Int.castRingHom ℝ)

/-- The concrete real eigenvector matrix (orthonormal columns). -/
def WEx : Matrix (Fin 4) (Fin 4) ℝ := (5 : ℝ)⁻¹ • WEx5Z.map (Int.castRingHom ℝ)

/-- The concrete real eigenvalues `25, 100, 1, -1`. -/
def LamEx : Fin 4 → ℝ := fun i => (LamZ i : ℝ)

/-- The concrete real `A` returned by the code on this input. -/
def AEx : Matrix (Fin 4) (Fin 4) ℝ := AExZ.map (Int.castRingHom ℝ)

theorem WEx5Z_colOrth : WEx5Zᵀ * WEx5Z = (25 : ℤ) • 1 := by decide

theorem WEx_colOrth : WExᵀ * WEx = 1 := by
  unfold WEx
  rw [Matrix.transpose_smul, Matrix.smul_mul, Matrix.mul_smul, smul_smul,
    ← Matrix.transpose_map, ← Matrix.map_mul, WEx5Z_colOrth, intSmulOne_cast, smul_smul]
  norm_num

theorem BEx_eigen : BEx * WEx = WEx * Matrix.diagonal LamEx := by
  have hdiag : (Matrix.diagonal LamZ).map (Int.castRingHom ℝ) = Matrix.diagonal LamEx :=
    Matrix.diagonal_map (by simp)
  unfold BEx WEx
  rw [Matrix.mul_smul, Matrix.smul_mul, ← Matrix.map_mul, BExZ_eigen, Matrix.map_mul, hdiag]

theorem nbPos_LamEx : nbPos LamEx = 3 := by
  unfold nbPos LamEx LamZ
  rw [Fin.sum_univ_four]
  norm_num [show ((0 : Fin 4) : ℕ) = 0 from rfl, show ((1 : Fin 4) : ℕ) = 1 from rfl,
    show ((2 : Fin 4) : ℕ) = 2 from rfl, show ((3 : Fin 4) : ℕ) = 3 from rfl]

theorem nbNeg_LamEx : nbNeg LamEx = 1 := by
  unfold nbNeg LamEx LamZ
  rw [Fin.sum_univ_four]
  norm_num [show ((0 : Fin 4) : ℕ) = 0 from rfl, show ((1 : Fin 4) : ℕ) = 1 from rfl,
    show ((2 : Fin 4) : ℕ) = 2 from rfl, show ((3 : Fin 4) : ℕ) = 3 from rfl]

theorem LamEx_three_neg : LamEx 3 < 0 := by
  unfold LamEx LamZ
  norm_num [show ((3 : Fin 4) : ℕ) = 3 from rfl]

theorem sqrt_abs_LamEx : ∀ i, Real.sqrt |LamEx i| = ((sqrtLamZ i : ℤ) : ℝ) := by
  intro i
  fin_cases i
  · show Real.sqrt |((25 : ℤ) : ℝ)| = ((5 : ℤ) : ℝ)
    rw [show |((25 : ℤ) : ℝ)| = 5 ^ 2 by norm_num, Real.sqrt_sq (by norm_num)]
    norm_num
  · show Real.sqrt |((100 : ℤ) : ℝ)| = ((10 : ℤ) : ℝ)
    rw [show |((100 : ℤ) : ℝ)| = 10 ^ 2 by norm_num, Real.sqrt_sq (by norm_num)]
    norm_num
  · show Real.sqrt |((1 : ℤ) : ℝ)| = ((1 : ℤ) : ℝ)
    rw [show |((1 : ℤ) : ℝ)| = 1 by norm_num, Real.sqrt_one]
    norm_num
  · show Real.sqrt |((-1 : ℤ) : ℝ)| = ((1 : ℤ) : ℝ)
    rw [show |((-1 : ℤ) : ℝ)| = 1 by norm_num, Real.sqrt_one]
    norm_num

theorem ambiguityStep_BEx :
    ambiguityStep (fun _ => (LamEx, WEx)) (fun _ => (1, 1)) BEx = AEx := by
  unfold ambiguityStep
  simp only
  rw [if_pos (Or.inr nbNeg_LamEx)]
  have hfun : (fun i => Real.sqrt |LamEx i|) = fun i => ((sqrtLamZ i : ℤ) : ℝ) :=
    funext sqrt_abs_LamEx
  rw [hfun,
    show Matrix.diagonal (fun i => ((sqrtLamZ i : ℤ) : ℝ))
        = (Matrix.diagonal sqrtLamZ).map (Int.castRingHom ℝ) from
      (Matrix.diagonal_map (by simp)).symm]
  unfold WEx AEx
  rw [Matrix.mul_smul, ← Matrix.map_mul, sqrtLam_mul, intSmul_cast, smul_smul]
  norm_num

/-- C5 counterexample: a concrete symmetric `B` in the separable branch — eigendata
verified by the first two conjuncts (`B·W = W·Λ`, orthonormal eigenvector columns),
signature 3 positive / 1 negative with the singleton eigenvalue `Λ₃ = -1 < 0` already
negative (so the code performs no flip and `-1` is a retained eigenvalue) — on which
the run does NOT fail: it returns `Except.ok` with `A = √|Λ|·W`, because the source
takes absolute values unconditionally and no `AmbiguityResolutionError` exists
anywhere in it. -/
theorem ambiguityStep_negative_retained_no_error :
    BEx * WEx = WEx * Matrix.diagonal LamEx ∧
    WExᵀ * WEx = 1 ∧
    nbPos LamEx = 3 ∧ nbNeg LamEx = 1 ∧ LamEx 3 < 0 ∧
    ambiguityStepE (fun _ => (LamEx, WEx)) (fun _ => (1, 1)) BEx = Except.ok AEx :=
  ⟨BEx_eigen, WEx_colOrth, nbPos_LamEx, nbNeg_LamEx, LamEx_three_neg,
    congrArg Except.ok ambiguityStep_BEx⟩

/-- C5 amended: in the separable-signature branch (one eigenvalue of one sign, three
of the other) the code flips the sign of `B` exactly when the positive count is 1 (so
the singleton ends up negative), and then — never raising any error, in particular no
`AmbiguityResolutionError`, and with no non-negativity check on the retained
eigenvalues — returns `A = √|Λ| · W` from `eig` of the possibly flipped `B`, with the
eigenvalues clamped by absolute value and `W` NOT transposed. -/
theorem ambiguityStep_separable_branch
    (eig : Matrix (Fin 4) (Fin 4) ℝ → (Fin 4 → ℝ) × Matrix (Fin 4) (Fin 4) ℝ)
    (svdB : Matrix (Fin 4) (Fin 4) ℝ → Matrix (Fin 4) (Fin 4) ℝ × Matrix (Fin 4) (Fin 4) ℝ)
    (B : Matrix (Fin 4) (Fin 4) ℝ)
    (h : (nbPos (eig B).1 = 1 ∧ nbNeg (eig B).1 = 3) ∨
      (nbNeg (eig B).1 = 1 ∧ nbPos (eig B).1 = 3)) :
    ambiguityStepE eig svdB B = Except.ok
      ((Matrix.diagonal fun i =>
          Real.sqrt |(eig (if nbPos (eig B).1 = 1 then -B else B)).1 i|) *
        (eig (if nbPos (eig B).1 = 1 then -B else B)).2) := by
  unfold ambiguityStepE ambiguityStep
  rw [if_pos (h.elim (fun h1 => Or.inl h1.1) (fun h1 => Or.inr h1.1))]

/-- Witness for the amended C5 at the concrete separable input `BEx`. -/
theorem ambiguityStep_separable_branch_witness :
    ambiguityStepE (fun _ => (LamEx, WEx))
        (fun _ => ((1 : Matrix (Fin 4) (Fin 4) ℝ), (1 : Matrix (Fin 4) (Fin 4) ℝ))) BEx
      = Except.ok ((Matrix.diagonal fun i => Real.sqrt |LamEx i|) * WEx) :=
  ambiguityStep_separable_branch (fun _ => (LamEx, WEx)) _ BEx
    (Or.inr ⟨nbNeg_LamEx, nbPos_LamEx⟩)

/-- Embedding of `np.take(S, idxs, axis=0)`: selects rows of `S` by the (plain integer) indices,
raising `IndexError` when any index is out of bounds. -/
def npTakeRows {r c : ℕ} (S : Matrix (Fin r) (Fin c) ℝ) (idxs : List ℕ) :
    Except PmsError (List (Fin c → ℝ)) :=
  if h : ∀ i ∈ idxs, i < r then
    Except.ok (idxs.pmap (fun i hi => fun j => S ⟨i, hi⟩ j) h)
  else Except.error PmsError.indexError

/-- The integer tuple `(0, 1, 2, 3, 0, 0, 0, 1, 1, 2)` passed to `np.take` on line 90
of `pms.py`. -/
def qTakeList1 : List ℕ := [0, 1, 2, 3, 0, 0, 0, 1, 1, 2]

/-- The number of rows of the pseudo-shape `S̃` when the stack holds `f` images:
`S = np.sqrt(delta[:4, :]).dot(Vt)` (line 79 of `pms.py`) has `min 4 f` rows because
`delta` is `f×n` and `delta[:4, :]` truncates to at most 4 rows. -/
def sRowCount (f : ℕ) : ℕ := min 4 f

/-- C4 counterexample: calling the calibrated solver with a single image (`n = 1 < 3`)
and the zero lighting matrix (column rank `0 < 3`) raises nothing — it returns
`Except.ok` with the all-zero normal field, not `DegenerateLightingError`. -/
theorem photometricStereo_degenerate_returns_ok :
    photometricStereoE (0 : Matrix (Fin 1) (Fin 3) ℝ) (0 : Matrix (Fin 1) (Fin 1) ℝ)
      = Except.ok 0 ∧
    (0 : Matrix (Fin 1) (Fin 3) ℝ).rank < 3 := by
  constructor
  · unfold photometricStereoE
    congr 1
    ext i j
    show (if rho (0 : Matrix (Fin 1) (Fin 3) ℝ) 0 j = 0 then 0
      else lstsq3 0 (fun k => (0 : Matrix (Fin 1) (Fin 1) ℝ) k j / rho 0 0 j) i) = _
    rw [if_pos]
    · simp
    · unfold rho colNorm
      rw [Matrix.mul_zero]
      simp
  · rw [Matrix.rank_zero]
    norm_num

/-- C4 amended: the source performs no input validation at all and neither
`DegenerateLightingError` nor `InsufficientImagesError` exists in it.  The calibrated
solver returns `Except.ok` on every input, including rank-deficient lighting and fewer
than 3 images.  The uncalibrated factorizer on fewer than 4 images (`f < 4`) fails not
with a typed error but with a raw `IndexError`: the pseudo-shape `S̃` then has
`min 4 f ≤ 3` rows, and `np.take` with row index 3 (present in the line-90 tuple) is
out of bounds. -/
theorem pms_missing_validation (f : ℕ) {n p npix : ℕ} (N : Matrix (Fin n) (Fin 3) ℝ)
    (I : Matrix (Fin n) (Fin p) ℝ) (S : Matrix (Fin (sRowCount f)) (Fin npix) ℝ)
    (hf : f < 4) :
    photometricStereoE N I = Except.ok (photometricStereo N I) ∧
    npTakeRows S qTakeList1 = Except.error PmsError.indexError := by
  refine ⟨rfl, ?_⟩
  unfold npTakeRows
  rw [dif_neg]
  intro hall
  have h3 : (3 : ℕ) ∈ qTakeList1 := by
    unfold qTakeList1
    simp
  have := hall 3 h3
  unfold sRowCount at this
  omega

/-- Witness for the amended C4 at `f = 2` images (a 2-row pseudo-shape) and concrete
zero matrices. -/
theorem pms_missing_validation_witness :
    photometricStereoE (0 : Matrix (Fin 1) (Fin 3) ℝ) (0 : Matrix (Fin 1) (Fin 2) ℝ)
        = Except.ok
          (photometricStereo (0 : Matrix (Fin 1) (Fin 3) ℝ) (0 : Matrix (Fin 1) (Fin 2) ℝ)) ∧
    npTakeRows (0 : Matrix (Fin (sRowCount 2)) (Fin 1) ℝ) qTakeList1
        = Except.error PmsError.indexError :=
  pms_missing_validation 2 (0 : Matrix (Fin 1) (Fin 3) ℝ) (0 : Matrix (Fin 1) (Fin 2) ℝ)
    (0 : Matrix (Fin (sRowCount 2)) (Fin 1) ℝ) (by norm_num)

/-- Row normalization of the pseudo-shape (lines 83–84 of `pms.py`):
`S[0,:] *= np.average(S_norms[1:]) / S_norms[0]`. -/
def normalizeS {n : ℕ} (S0 : Matrix (Fin 4) (Fin n) ℝ) : Matrix (Fin 4) (Fin n) ℝ :=
  Matrix.of fun i j =>
    if i = 0 then
      S0 i j * ((rowNorm S0 1 + rowNorm S0 2 + rowNorm S0 3) / 3 / rowNorm S0 0)
    else S0 i j

/-- The observable side effects of a run of `photometricStereoWithoutLightning`.  The
only one in the source is the `import pdb; pdb.set_trace()` on line 121, which
unconditionally suspends the process and waits for interactive debugger input. -/
inductive PyEffect where
  | pdbBreakpoint
  deriving DecidableEq

/-- The numeric core of `photometricStereoWithoutLightning` (lines 52–132 of
`pms.py`) for a stack of `f ≥ 4` images, together with the list of suspension effects
it performs.  Inputs are the SVD data of the intensity matrix `M` — the first four
singular values `sig4` and the first four rows `Vt4` of `Vᵗ` — because for `f ≥ 4`
the sparse padding dance of lines 66–79 makes `S̃ = √(delta[:4,:])·Vt` with row `i`
equal to `√σᵢ` times row `i` of `Vᵗ`.  The `np.linalg.svd(Q)` factor `Vᵗ`, the
`np.linalg.eig` routine and the `np.linalg.svd(B)` factors of the ambiguity step are
oracle parameters.  The run: normalize `S̃`, build `Q`, select `b`, assemble `B`,
resolve the ambiguity into `A`, then — before computing the scene structure `A·S̃` —
execute the `pdb.set_trace()` breakpoint of line 121 (recorded as an effect);
finally drop the homogeneous row and divide each remaining column by its norm. -/
def pmsNoLight {n : ℕ} (sig4 : Fin 4 → ℝ) (Vt4 : Matrix (Fin 4) (Fin n) ℝ)
    (svdQ : Matrix (Fin n) (Fin 10) ℝ → Matrix (Fin 10) (Fin 10) ℝ)
    (eig : Matrix (Fin 4) (Fin 4) ℝ → (Fin 4 → ℝ) × Matrix (Fin 4) (Fin 4) ℝ)
    (svdB : Matrix (Fin 4) (Fin 4) ℝ → Matrix (Fin 4) (Fin 4) ℝ × Matrix (Fin 4) (Fin 4) ℝ) :
    List PyEffect × Matrix (Fin 3) (Fin n) ℝ :=
  let S0 := Matrix.of fun i j => Real.sqrt (sig4 i) * Vt4 i j
  let S := normalizeS S0
  let Q := buildQ S
  let b := selectB (svdQ Q)
  let B := buildB b
  let A := ambiguityStep eig svdB B
  let scene := A * S
  let normals0 : Matrix (Fin 3) (Fin n) ℝ := Matrix.of fun i j => scene i.succ j
  ([PyEffect.pdbBreakpoint],
    Matrix.of fun i j => normals0 i j / colNorm normals0 j)

/-- C8 (code bug): every run of the uncalibrated factorizer suspends for interactive
input — the effect trace of any invocation is exactly the line-121
`pdb.set_trace()` breakpoint, contradicting the claim that no operation ever suspends
or blocks mid-algorithm. -/
theorem pmsNoLight_always_suspends {n : ℕ} (sig4 : Fin 4 → ℝ)
    (Vt4 : Matrix (Fin 4) (Fin n) ℝ)
    (svdQ : Matrix (Fin n) (Fin 10) ℝ → Matrix (Fin 10) (Fin 10) ℝ)
    (eig : Matrix (Fin 4) (Fin 4) ℝ → (Fin 4 → ℝ) × Matrix (Fin 4) (Fin 4) ℝ)
    (svdB : Matrix (Fin 4) (Fin 4) ℝ → Matrix (Fin 4) (Fin 4) ℝ × Matrix (Fin 4) (Fin 4) ℝ) :
    (pmsNoLight sig4 Vt4 svdQ eig svdB).1 = [PyEffect.pdbBreakpoint] :=
  rfl
